import Mathlib

/-!
Verification of the gb-seven5 build orchestrator.

The repository is a small Go program (`main.go` plus a second, fuller
revision of the same command) that, per command-line argument, scans a
`client` package for `.go` source files containing a `main` function,
compiles each with the external `gopherjs` compiler to a mirrored path under
`static/en/web`, and pairs `.json` description files with `.html` markup
files under `pages/template` (skipping `support` directories), dispatching
the external `pagegen` generator per pair.

The embedding below models Go strings as lists of characters, the Go
standard library's `path/filepath` lexical operations (`Clean`, `Join`,
`Dir`) component-wise, the filesystem as a tree, and `filepath.Walk` as a
structural recursion with `SkipDir` support.  External processes
(`gopherjs`, `pagegen`), `os.Stat` and the Go parser are oracles supplied
in a `World` structure; the orchestration logic is translated from the
source.
-/

namespace GbSeven5

/-- Go strings, modelled as lists of characters. -/
abbrev GoStr := List Char

/-- Coerce a Lean string literal into the Go string model. -/
def str (s : String) : GoStr := s.toList

/-- `strings.HasPrefix s p`. -/
def hasPrefixGo (s p : GoStr) : Bool := p.isPrefixOf s

/-- `strings.TrimPrefix s p`: drop `p` from the front of `s` when it is a prefix. -/
def trimPrefixGo (s p : GoStr) : GoStr := if p.isPrefixOf s then s.drop p.length else s

/-- `strings.HasSuffix s p`. -/
def hasSuffixGo (s p : GoStr) : Bool := p.isSuffixOf s

/-- `strings.TrimSuffix s p`: drop `p` from the end of `s` when it is a suffix. -/
def trimSuffixGo (s p : GoStr) : GoStr :=
  if p.isSuffixOf s then s.take (s.length - p.length) else s

/-- Split a path at every `'/'` (the list of slash-separated components,
keeping empty components, as `strings.Split(p, "/")` would). -/
def splitSlash : GoStr → List GoStr
  | [] => [[]]
  | c :: rest =>
    let r := splitSlash rest
    if c = '/' then [] :: r
    else (c :: r.headI) :: r.tail

/-- Join components with `'/'` (as `strings.Join(l, "/")`). -/
def joinSlash : List GoStr → GoStr
  | [] => []
  | [g] => g
  | g :: gs => g ++ '/' :: joinSlash gs

/-- Whether a path is rooted (begins with `'/'`). -/
def isRooted (p : GoStr) : Bool := decide (p.head? = some '/')

/-- One step of `filepath.Clean`'s component processing: the accumulator is
the stack of output components, most recent first.  Empty and `"."`
components are dropped; `".."` pops a poppable component, is kept if the
stack is all-`".."` and the path is not rooted, and is dropped at the root;
any other component is pushed. -/
def cleanStep (rooted : Bool) (acc : List GoStr) (c : GoStr) : List GoStr :=
  if c = [] ∨ c = ['.'] then acc
  else if c = ['.', '.'] then
    match acc with
    | [] => if rooted then [] else [['.', '.']]
    | d :: rest => if d = ['.', '.'] then c :: acc else rest
  else c :: acc

/-- Reassemble a component stack into the cleaned path, as `filepath.Clean`
does: a rooted result always begins with `'/'`; an empty non-rooted result
is `"."`. -/
def renderStack (rooted : Bool) (S : List GoStr) : GoStr :=
  if rooted then '/' :: joinSlash S.reverse
  else if S = [] then ['.'] else joinSlash S.reverse

/-- `filepath.Clean` on Unix, computed component-wise: split at slashes,
process the components against a stack, reassemble. -/
def goClean (p : GoStr) : GoStr :=
  if p = [] then ['.']
  else renderStack (isRooted p) ((splitSlash p).foldl (cleanStep (isRooted p)) [])

/-- `filepath.Join` on Unix: drop leading empty elements, join the rest
with slashes, and `Clean` the result; all-empty input yields `""`. -/
def goJoin (elems : List GoStr) : GoStr :=
  match elems.dropWhile (fun e => e.isEmpty) with
  | [] => []
  | ne => goClean (joinSlash ne)

/-- `filepath.Dir` on Unix: drop the final component (the maximal run of
non-slash characters at the end) and `Clean` what remains. -/
def goDir (p : GoStr) : GoStr :=
  goClean ((p.reverse.dropWhile (fun c => c ≠ '/')).reverse)

/-! ### Path constructors (the `construct*Path` support functions) -/

/-- `constructClientPackagePath`: `filepath.Join(project, "src", arg, "client")`. -/
def constructClientPackagePath (project arg : GoStr) : GoStr :=
  goJoin [project, str "src", arg, str "client"]

/-- `constructPagesPath`: `filepath.Join(project, "src", arg, "pages")`. -/
def constructPagesPath (project arg : GoStr) : GoStr :=
  goJoin [project, str "src", arg, str "pages"]

/-- `constructTemplatesPath`: `filepath.Join(project, "src", arg, "pages", "template")`. -/
def constructTemplatesPath (project arg : GoStr) : GoStr :=
  goJoin [project, str "src", arg, str "pages", str "template"]

/-- `constructSupportPath`: `filepath.Join(project, "src", arg, "pages", "template", "support")`. -/
def constructSupportPath (project arg : GoStr) : GoStr :=
  goJoin [project, str "src", arg, str "pages", str "template", str "support"]

/-- `constructStaticEnglishPath`: `filepath.Join(project, "src", arg, "static", "en", "web")`. -/
def constructStaticEnglishPath (project arg : GoStr) : GoStr :=
  goJoin [project, str "src", arg, str "static", str "en", str "web"]

/-! ### Go source files and `hasMainFunc` -/

/-- A top-level Go declaration as seen by `go/ast`: a `FuncDecl` carries its
name and whether it has a receiver (methods are `FuncDecl`s too); every
other declaration form (`GenDecl`, …) is irrelevant to the scanner. -/
inductive GoDecl where
  | funcDecl (name : GoStr) (hasRecv : Bool)
  | genDecl
deriving DecidableEq, Repr

/-- A parsed Go source file: its top-level declarations. -/
structure GoFile where
  decls : List GoDecl
deriving DecidableEq, Repr

/-- `hasMainFunc` (post-parse part): scan the top-level declarations and
report whether any `FuncDecl` is named exactly `"main"`.  The source
switches on `*ast.FuncDecl` and compares `x.Name.String()` to `"main"`; it
never inspects the receiver. -/
def hasMainFunc (f : GoFile) : Bool :=
  f.decls.any fun d =>
    match d with
    | .funcDecl n _ => n = str "main"
    | .genDecl => false

/-- Entry-point test as the specification words it (for comparison with
`hasMainFunc`): a top-level function literally named `main` at package
scope, not a method — a declaration with a receiver must not count. -/
def specEntryPointMain (f : GoFile) : Bool :=
  f.decls.any fun d =>
    match d with
    | .funcDecl n r => n = str "main" && !r
    | .genDecl => false

/-! ### Filesystem trees and `filepath.Walk` -/

/-- A filesystem subtree: regular files and directories with ordered
children (the order models the sorted order `filepath.Walk` visits). -/
inductive FSNode where
  | file (name : GoStr)
  | dir (name : GoStr) (children : List FSNode)

/-- The base name of a node, as `FileInfo.Name()` reports it. -/
def nodeName : FSNode → GoStr
  | .file n => n
  | .dir n _ => n

/-- How a run step can fail: an ordinary returned error, or a `panic`. -/
inductive RunErr where
  | err (msg : GoStr)
  | panicked (msg : GoStr)
deriving DecidableEq, Repr

/-- A `filepath.Walk` callback: receives the joined path, the entry's base
name and directory flag, and threads a state; it can fail or request
`SkipDir` (the returned flag). -/
def Visitor (σ : Type) := GoStr → GoStr → Bool → σ → Except RunErr (σ × Bool)

mutual

/-- `filepath.Walk` of a single node placed at `path`: visit the node, then
(for a directory, unless the visitor requested `SkipDir`) its children at
`filepath.Join(path, name)`. -/
def walkNode (v : Visitor σ) (path : GoStr) : FSNode → σ → Except RunErr σ
  | .file n, st =>
    match v path n false st with
    | .error e => .error e
    | .ok (st', _) => .ok st'
  | .dir n cs, st =>
    match v path n true st with
    | .error e => .error e
    | .ok (st', skip) => if skip then .ok st' else walkListNodes v path cs st'

/-- Walk a directory's children in order, aborting on the first error. -/
def walkListNodes (v : Visitor σ) (path : GoStr) : List FSNode → σ → Except RunErr σ
  | [], st => .ok st
  | c :: rest, st =>
    match walkNode v (goJoin [path, nodeName c]) c st with
    | .error e => .error e
    | .ok st' => walkListNodes v path rest st'

end

/-- The walk callback of `iterateDirs`: collect every visited path whose
base name ends in `".go"` — there is no regular-file check. -/
def iterVisit : Visitor (List GoStr) := fun path name _ st =>
  .ok (if hasSuffixGo name (str ".go") then st ++ [path] else st, false)

/-- `iterateDirs` for the single directory the program ever passes: walk it
and return the collected `.go`-suffixed paths (or the walk's error). -/
def iterateDirs (root : GoStr) (t : FSNode) : Except RunErr (List GoStr) :=
  walkNode iterVisit root t []

/-- State threaded through the `pageGeneration` walk: the parallel
`jsonFiles` and `htmlFiles` slices. -/
structure PGState where
  jsonFiles : List GoStr
  htmlFiles : List GoStr
deriving DecidableEq, Repr

/-- The companion markup path required for a description file: the same
directory, same base name, `.html` suffix
(`filepath.Join(filepath.Dir(path), strings.TrimSuffix(name, ".json") + ".html")`). -/
def companionPath (path name : GoStr) : GoStr :=
  goJoin [goDir path, trimSuffixGo name (str ".json") ++ str ".html"]

/-- The walk callback of `pageGeneration`: skip directories named
`"support"`; for every entry whose name ends in `".json"`, require
(`os.Stat`, the `ex` oracle) the companion `.html` path and record the
pair, failing with `no html file for <path>` when the stat fails. -/
def pgVisit (ex : GoStr → Bool) : Visitor PGState := fun path name isDir st =>
  if isDir && name = str "support" then .ok (st, true)
  else if hasSuffixGo name (str ".json") then
    if ex (companionPath path name) then
      .ok (⟨st.jsonFiles ++ [path], st.htmlFiles ++ [companionPath path name]⟩, false)
    else .error (.err (str "no html file for " ++ path))
  else .ok (st, false)

/-! ### The program model -/

/-- A `gopherjs build -m -o target page` invocation: the pair
(target, page). -/
abbrev GJob := GoStr × GoStr

/-- A `pagegen` invocation plus the output file it writes:
`pagegen --support support --dir dir --start start --json json` with stdout
written to `out`. -/
structure Job where
  support : GoStr
  dir : GoStr
  start : GoStr
  json : GoStr
  out : GoStr
deriving DecidableEq, Repr

/-- The program's environment: the `GB_PROJECT_DIR` value (`[]` when unset),
oracles for the external executables check, `os.Stat`, the filesystem
subtree found at a walked root, the Go parser's result per path, and the
exit status of each external `gopherjs`/`pagegen` invocation. -/
structure World where
  projectEnv : GoStr
  execsOk : Bool
  statOk : GoStr → Bool
  tree : GoStr → FSNode
  parse : GoStr → Option GoFile
  compileOk : GoStr → Bool
  pagegenOk : Job → Bool

/-- The loop that classifies the scanned files: call `hasMainFunc` on each
in order, aborting on the first parse error, and keep the paths that have a
`main`. -/
def findPages (w : World) : List GoStr → Except RunErr (List GoStr)
  | [] => .ok []
  | f :: rest =>
    match w.parse f with
    | none => .error (.err (str "error parsing " ++ f))
    | some file =>
      match findPages w rest with
      | .error e => .error e
      | .ok ps => .ok (if hasMainFunc file then f :: ps else ps)

/-- Output-path resolution for one page, as in the compile loop:
`filepath.Join(constructStaticEnglishPath(project, arg), strings.TrimPrefix(page, constructClientPackagePath(project, arg)))`. -/
def resolveTarget (project arg page : GoStr) : GoStr :=
  goJoin [constructStaticEnglishPath project arg,
    trimPrefixGo page (constructClientPackagePath project arg)]

/-- The per-page compile loop of `gopherjsCompilation`: panic when a page
is not string-prefixed by the client package path; otherwise invoke
`gopherjs` on the resolved target (recorded in the accumulator) and abort
the remaining pages on a non-zero exit. -/
def compileLoop (w : World) (project arg : GoStr) :
    List GoStr → List GJob → List GJob × Except RunErr Unit
  | [], acc => (acc, .ok ())
  | page :: rest, acc =>
    if hasPrefixGo page (constructClientPackagePath project arg) then
      let target := resolveTarget project arg page
      if w.compileOk page then compileLoop w project arg rest (acc ++ [(target, page)])
      else (acc ++ [(target, page)], .error (.err (str "gopherjs exit error")))
    else
      (acc, .error (.panicked (str "unable to understand page path " ++ page ++
        str " in package " ++ constructClientPackagePath project arg)))

/-- `gopherjsCompilation`: scan the client package for `.go` files, keep
those with a `main` function, and compile each to its mirrored target.
Returns the `gopherjs` invocations made and the outcome. -/
def gopherjsCompilation (w : World) (project arg : GoStr) :
    List GJob × Except RunErr Unit :=
  let dir := constructClientPackagePath project arg
  match iterateDirs dir (w.tree dir) with
  | .error e => ([], .error e)
  | .ok gofiles =>
    match findPages w gofiles with
    | .error e => ([], .error e)
    | .ok pages => compileLoop w project arg pages []

/-- The dispatch loop of `pageGeneration` over the collected
(json, html) pairs: panic when a json path is not string-prefixed by the
templates path; otherwise invoke `pagegen` with template-relative paths
(recorded in the accumulator), aborting the remaining pairs on failure. -/
def pgLoop (w : World) (tpl out : GoStr) :
    List (GoStr × GoStr) → List Job → List Job × Except RunErr Unit
  | [], acc => (acc, .ok ())
  | (jsonFile, htmlFile) :: rest, acc =>
    if hasPrefixGo jsonFile tpl then
      let html := trimPrefixGo htmlFile tpl
      let json := trimPrefixGo jsonFile tpl
      let job : Job := ⟨str "support", tpl, html, json, goJoin [out, html]⟩
      if w.pagegenOk job then pgLoop w tpl out rest (acc ++ [job])
      else (acc ++ [job], .error (.err (str "pagegen exit error")))
    else
      (acc, .error (.panicked (str "unable to understand json path " ++ jsonFile ++
        str " in template dir " ++ tpl)))

/-- `pageGeneration` on a given template subtree: walk it collecting and
validating the (json, html) pairs, then — only if the whole walk succeeded —
dispatch `pagegen` for each pair in discovery order.  Returns the `pagegen`
invocations made and the outcome. -/
def pageGenerationOn (w : World) (project arg : GoStr) (t : FSNode) :
    List Job × Except RunErr Unit :=
  let tpl := constructTemplatesPath project arg
  match walkNode (pgVisit w.statOk) tpl t ⟨[], []⟩ with
  | .error e => ([], .error e)
  | .ok st => pgLoop w tpl (constructStaticEnglishPath project arg)
      (st.jsonFiles.zip st.htmlFiles) []

/-- `pageGeneration`: as `pageGenerationOn`, on the subtree the filesystem
holds at the templates path. -/
def pageGeneration (w : World) (project arg : GoStr) : List Job × Except RunErr Unit :=
  pageGenerationOn w project arg (w.tree (constructTemplatesPath project arg))

/-- `validateProjectStructure`: `os.Stat` on the client package path, the
`static/en/web` path and the `pages` path must all succeed. -/
def validateProjectStructure (w : World) (project arg : GoStr) : Bool :=
  w.statOk (constructClientPackagePath project arg) &&
  w.statOk (constructStaticEnglishPath project arg) &&
  w.statOk (constructPagesPath project arg)

/-- Everything externally observable about a run: the `gopherjs` and
`pagegen` invocations, in order. -/
structure Trace where
  gopherjs : List GJob
  pagegen : List Job
deriving DecidableEq, Repr

/-- How the process terminates: `os.Exit code`, or a runtime panic with a
message (a Go panic is not an `os.Exit(1)`; the runtime aborts with
status 2). -/
inductive Outcome where
  | exit (code : Nat)
  | panicked (msg : GoStr)
deriving DecidableEq, Repr

/-- The per-argument loop of `main`: validate the layout, run
`gopherjsCompilation` then `pageGeneration`, exiting the whole process with
status 1 on the first error; a model-level panic surfaces as
`Outcome.panicked`. -/
def argLoop (w : World) (project : GoStr) : List GoStr → Trace → Trace × Outcome
  | [], tr => (tr, .exit 0)
  | arg :: rest, tr =>
    if validateProjectStructure w project arg then
      match gopherjsCompilation w project arg with
      | (gj, .error (.panicked m)) => ({ tr with gopherjs := tr.gopherjs ++ gj }, .panicked m)
      | (gj, .error (.err _)) => ({ tr with gopherjs := tr.gopherjs ++ gj }, .exit 1)
      | (gj, .ok _) =>
        let tr' := { tr with gopherjs := tr.gopherjs ++ gj }
        match pageGeneration w project arg with
        | (pj, .error (.panicked m)) => ({ tr' with pagegen := tr'.pagegen ++ pj }, .panicked m)
        | (pj, .error (.err _)) => ({ tr' with pagegen := tr'.pagegen ++ pj }, .exit 1)
        | (pj, .ok _) => argLoop w project rest { tr' with pagegen := tr'.pagegen ++ pj }
    else (tr, .exit 1)

/-- The global `verbose` flag, exactly as declared: set to `true` and never
read anywhere in the program. -/
def verbose : Bool := true

/-- `main`: read `GB_PROJECT_DIR` (panicking when empty), check for the
required executables (exit 1 on failure), print help and exit 0 with no
arguments, else process the arguments in order.  The first parameter is the
value of the global `verbose` flag, which the program never reads. -/
def mainModel (vb : Bool) (w : World) (args : List GoStr) : Trace × Outcome :=
  let _ := vb
  if w.projectEnv = [] then
    (⟨[], []⟩, .panicked (str "gb extensions should be launched with GB_PROJECT_DIR set"))
  else if !w.execsOk then (⟨[], []⟩, .exit 1)
  else if args = [] then (⟨[], []⟩, .exit 0)
  else argLoop w w.projectEnv args ⟨[], []⟩

/-! ### Algebra of `splitSlash`, `joinSlash` and `cleanStep` -/

theorem joinSlash_cons (g : GoStr) (gs : List GoStr) (h : gs ≠ []) :
    joinSlash (g :: gs) = g ++ '/' :: joinSlash gs := by
  cases gs with
  | nil => exact absurd rfl h
  | cons a as => rfl

theorem joinSlash_append (a b : List GoStr) (ha : a ≠ []) (hb : b ≠ []) :
    joinSlash (a ++ b) = joinSlash a ++ '/' :: joinSlash b := by
  induction a with
  | nil => exact absurd rfl ha
  | cons x xs ih =>
    cases xs with
    | nil => simp [joinSlash_cons x b hb, joinSlash]
    | cons y ys =>
      rw [List.cons_append, joinSlash_cons x ((y :: ys) ++ b) (by simp),
        joinSlash_cons x (y :: ys) (by simp), ih (by simp)]
      simp

theorem splitSlash_ne_nil (s : GoStr) : splitSlash s ≠ [] := by
  cases s with
  | nil => simp [splitSlash]
  | cons c cs =>
    simp only [splitSlash]
    split <;> simp

theorem splitSlash_append (s t : GoStr) :
    splitSlash (s ++ '/' :: t) = splitSlash s ++ splitSlash t := by
  induction s with
  | nil => simp [splitSlash]
  | cons c cs ih =>
    by_cases h : c = '/'
    · subst h
      simp [splitSlash, ih]
    · cases hsc : splitSlash cs with
      | nil => exact absurd hsc (splitSlash_ne_nil cs)
      | cons g gs =>
        rw [List.cons_append]
        simp only [splitSlash]
        rw [ih, hsc]
        simp [h]

theorem splitSlash_noSlash : ∀ (s : GoStr), '/' ∉ s → splitSlash s = [s] := by
  intro s
  induction s with
  | nil => intro _; rfl
  | cons c cs ih =>
    intro h
    have hc : c ≠ '/' := fun hc => h (hc ▸ List.mem_cons_self c cs)
    have ihcs := ih (fun hm => h (List.mem_cons_of_mem c hm))
    simp [splitSlash, hc, ihcs]

theorem splitSlash_cons_slash (rest : GoStr) :
    splitSlash ('/' :: rest) = [] :: splitSlash rest := by
  simp [splitSlash]

theorem splitSlash_cons_other (c : Char) (rest : GoStr) (h : ¬c = '/') :
    splitSlash (c :: rest) =
      (c :: (splitSlash rest).headI) :: (splitSlash rest).tail := by
  simp [splitSlash, h]

theorem mem_splitSlash_noSlash (s : GoStr) : ∀ c ∈ splitSlash s, '/' ∉ c := by
  induction s with
  | nil => intro c hc; simp [splitSlash] at hc; simp [hc]
  | cons x xs ih =>
    intro c hc
    by_cases hx : x = '/'
    · subst hx
      rw [splitSlash_cons_slash, List.mem_cons] at hc
      rcases hc with h | h
      · simp [h]
      · exact ih c h
    · cases hr : splitSlash xs with
      | nil => exact absurd hr (splitSlash_ne_nil xs)
      | cons g gs =>
        rw [splitSlash_cons_other x xs hx, hr, List.headI, List.tail_cons,
          List.mem_cons] at hc
        rcases hc with h | h
        · subst h
          intro hmem
          rcases List.mem_cons.mp hmem with h' | h'
          · exact hx h'.symm
          · exact ih g (hr ▸ List.mem_cons_self g gs) h'
        · exact ih c (hr ▸ List.mem_cons_of_mem g h)

theorem splitSlash_joinSlash (cs : List GoStr) (h0 : cs ≠ [])
    (h : ∀ c ∈ cs, '/' ∉ c) : splitSlash (joinSlash cs) = cs := by
  induction cs with
  | nil => exact absurd rfl h0
  | cons c rest ih =>
    cases rest with
    | nil => exact splitSlash_noSlash c (h c (List.mem_cons_self c []))
    | cons d ds =>
      rw [joinSlash_cons c (d :: ds) (by simp), splitSlash_append,
        splitSlash_noSlash c (h c (List.mem_cons_self c (d :: ds))),
        ih (by simp) (fun e he => h e (List.mem_cons_of_mem c he))]
      rfl

/-- A component a real directory entry can contribute: nonempty, without
slashes, and neither of the special names `"."` and `".."`. -/
def ValidName (c : GoStr) : Prop :=
  c ≠ [] ∧ '/' ∉ c ∧ c ≠ ['.'] ∧ c ≠ ['.', '.']

instance : DecidablePred ValidName := fun c => by
  unfold ValidName; exact inferInstance

theorem cleanStep_skip (rooted : Bool) (acc : List GoStr) {c : GoStr}
    (h : c = [] ∨ c = ['.']) : cleanStep rooted acc c = acc := by
  unfold cleanStep
  rw [if_pos h]

theorem cleanStep_valid (rooted : Bool) (acc : List GoStr) {c : GoStr}
    (h : ValidName c) : cleanStep rooted acc c = c :: acc := by
  obtain ⟨h1, -, h3, h4⟩ := h
  unfold cleanStep
  rw [if_neg (by simp [h1, h3]), if_neg h4]

theorem foldl_cleanStep_valid (rooted : Bool) (cs : List GoStr)
    (h : ∀ c ∈ cs, ValidName c) (acc : List GoStr) :
    cs.foldl (cleanStep rooted) acc = cs.reverse ++ acc := by
  induction cs generalizing acc with
  | nil => rfl
  | cons c rest ih =>
    rw [List.foldl_cons, cleanStep_valid rooted acc (h c (List.mem_cons_self c rest)),
      ih (fun e he => h e (List.mem_cons_of_mem c he))]
    simp

/-- Invariant of `filepath.Clean`'s component stack: valid names on top of a
run of `".."` components, the latter empty for rooted paths. -/
def GoodStack (rooted : Bool) (S : List GoStr) : Prop :=
  ∃ ns ds, S = ns ++ ds ∧ (∀ c ∈ ns, ValidName c) ∧
    (∀ c ∈ ds, c = ['.', '.']) ∧ (rooted = true → ds = [])

theorem goodStack_nil (rooted : Bool) : GoodStack rooted [] :=
  ⟨[], [], rfl, by simp, by simp, fun _ => rfl⟩

theorem goodStack_push {rooted : Bool} {S : List GoStr} {c : GoStr}
    (h : GoodStack rooted S) (hc : ValidName c) : GoodStack rooted (c :: S) := by
  obtain ⟨ns, ds, h1, h2, h3, h4⟩ := h
  exact ⟨c :: ns, ds, by simp [h1], by
    intro e he
    rcases List.mem_cons.mp he with h | h
    · exact h ▸ hc
    · exact h2 e h, h3, h4⟩

theorem goodStack_mem {rooted : Bool} {S : List GoStr} {c : GoStr}
    (h : GoodStack rooted S) (hc : c ∈ S) : c ≠ [] ∧ '/' ∉ c := by
  obtain ⟨ns, ds, h1, h2, h3, -⟩ := h
  subst h1
  rcases List.mem_append.mp hc with h | h
  · exact ⟨(h2 c h).1, (h2 c h).2.1⟩
  · rw [h3 c h]; simp

theorem cleanStep_dotdot_nil (rooted : Bool) :
    cleanStep rooted [] ['.', '.'] = if rooted then [] else [['.', '.']] := by
  unfold cleanStep
  rw [if_neg (by simp), if_pos rfl]

theorem cleanStep_dotdot_cons (rooted : Bool) (d : GoStr) (rest : List GoStr) :
    cleanStep rooted (d :: rest) ['.', '.'] =
      if d = ['.', '.'] then ['.', '.'] :: d :: rest else rest := by
  unfold cleanStep
  rw [if_neg (by simp), if_pos rfl]

theorem goodStack_step {rooted : Bool} {S : List GoStr} {c : GoStr}
    (h : GoodStack rooted S) (hc : '/' ∉ c) :
    GoodStack rooted (cleanStep rooted S c) := by
  by_cases h0 : c = [] ∨ c = ['.']
  · rw [cleanStep_skip rooted S h0]; exact h
  by_cases hdd : c = ['.', '.']
  · subst hdd
    obtain ⟨ns, ds, h1, h2, h3, h4⟩ := h
    cases hns : ns with
    | cons n ns' =>
      subst h1
      rw [hns]
      have hn : ValidName n := h2 n (hns ▸ List.mem_cons_self n ns')
      rw [List.cons_append, cleanStep_dotdot_cons, if_neg hn.2.2.2]
      exact ⟨ns', ds, rfl, fun e he => h2 e (hns ▸ List.mem_cons_of_mem n he), h3, h4⟩
    | nil =>
      subst h1
      rw [hns, List.nil_append]
      cases hds : ds with
      | nil =>
        rw [cleanStep_dotdot_nil]
        cases rooted with
        | true => rw [if_pos rfl]; exact goodStack_nil true
        | false =>
          rw [if_neg (by simp)]
          exact ⟨[], [['.', '.']], rfl, by simp, by simp, by simp⟩
      | cons d ds' =>
        have hro : rooted = false := by
          cases hro : rooted with
          | true => exact absurd (h4 hro) (by simp [hds])
          | false => rfl
        rw [cleanStep_dotdot_cons, if_pos (h3 d (hds ▸ List.mem_cons_self d ds'))]
        exact ⟨[], ['.', '.'] :: d :: ds', rfl, by simp, by
          intro e he
          rcases List.mem_cons.mp he with h | h
          · exact h
          · exact h3 e (hds ▸ h), by simp [hro]⟩
  · have hv : ValidName c := ⟨fun h => h0 (Or.inl h), hc, fun h => h0 (Or.inr h), hdd⟩
    rw [cleanStep_valid rooted S hv]
    exact goodStack_push h hv

theorem goodStack_foldl {rooted : Bool} {S : List GoStr} (h : GoodStack rooted S)
    (cs : List GoStr) (hcs : ∀ c ∈ cs, '/' ∉ c) :
    GoodStack rooted (cs.foldl (cleanStep rooted) S) := by
  induction cs generalizing S with
  | nil => exact h
  | cons c rest ih =>
    rw [List.foldl_cons]
    exact ih (goodStack_step h (hcs c (List.mem_cons_self c rest)))
      (fun e he => hcs e (List.mem_cons_of_mem c he))

theorem foldl_cleanStep_dotdot {rooted : Bool} (ds : List GoStr)
    (hds : ∀ c ∈ ds, c = ['.', '.']) (hr : rooted = true → ds = []) :
    ds.reverse.foldl (cleanStep rooted) [] = ds := by
  induction ds with
  | nil => rfl
  | cons d ds' ih =>
    have hro : rooted = false := by
      cases hro : rooted with
      | true => exact absurd (hr hro) (by simp)
      | false => rfl
    have hd : d = ['.', '.'] := hds d (List.mem_cons_self d ds')
    rw [List.reverse_cons, List.foldl_append,
      ih (fun e he => hds e (List.mem_cons_of_mem d he)) (by simp [hro])]
    simp only [List.foldl_cons, List.foldl_nil]
    subst hd
    cases hds' : ds' with
    | nil => rw [cleanStep_dotdot_nil, if_neg (by simp [hro])]
    | cons e rest =>
      rw [cleanStep_dotdot_cons, if_pos (hds e (by simp [hds']))]

theorem goodStack_refold {rooted : Bool} {S : List GoStr} (h : GoodStack rooted S) :
    S.reverse.foldl (cleanStep rooted) [] = S := by
  obtain ⟨ns, ds, h1, h2, h3, h4⟩ := h
  subst h1
  rw [List.reverse_append, List.foldl_append, foldl_cleanStep_dotdot ds h3 h4,
    foldl_cleanStep_valid rooted ns.reverse (fun c hc => h2 c (List.mem_reverse.mp hc)) ds,
    List.reverse_reverse]

/-! ### Cleaned paths: `renderStack` facts and extension lemmas -/

theorem joinSlash_cons_head (c : GoStr) (rest : List GoStr) :
    ∃ t, joinSlash (c :: rest) = c ++ t := by
  cases rest with
  | nil => exact ⟨[], by simp [joinSlash]⟩
  | cons r rs => exact ⟨'/' :: joinSlash (r :: rs), rfl⟩

theorem renderStack_ne_nil {rooted : Bool} {S : List GoStr}
    (h : GoodStack rooted S) : renderStack rooted S ≠ [] := by
  cases rooted with
  | true => simp [renderStack]
  | false =>
    by_cases hS : S = []
    · simp [renderStack, hS]
    · obtain ⟨c, rest, hrev⟩ : ∃ c rest, S.reverse = c :: rest := by
        cases h' : S.reverse with
        | nil => exact absurd (List.reverse_eq_nil_iff.mp h') hS
        | cons c rest => exact ⟨c, rest, rfl⟩
      have hc : c ∈ S := List.mem_reverse.mp (hrev ▸ List.mem_cons_self c rest)
      obtain ⟨t, ht⟩ := joinSlash_cons_head c rest
      have hcne := (goodStack_mem h hc).1
      simp only [renderStack, if_neg (by simp : ¬(false = true)), if_neg hS, hrev, ht]
      simp [hcne]

theorem isRooted_append (s t : GoStr) (hs : s ≠ []) :
    isRooted (s ++ t) = isRooted s := by
  cases s with
  | nil => exact absurd rfl hs
  | cons c cs => simp [isRooted]

theorem isRooted_renderStack {rooted : Bool} {S : List GoStr}
    (h : GoodStack rooted S) (hS : S ≠ []) :
    isRooted (renderStack rooted S) = rooted := by
  cases rooted with
  | true => simp [renderStack, isRooted]
  | false =>
    obtain ⟨c, rest, hrev⟩ : ∃ c rest, S.reverse = c :: rest := by
      cases h' : S.reverse with
      | nil => exact absurd (List.reverse_eq_nil_iff.mp h') hS
      | cons c rest => exact ⟨c, rest, rfl⟩
    have hc : c ∈ S := List.mem_reverse.mp (hrev ▸ List.mem_cons_self c rest)
    obtain ⟨hcne, hcns⟩ := goodStack_mem h hc
    obtain ⟨t, ht⟩ := joinSlash_cons_head c rest
    cases c with
    | nil => exact absurd rfl hcne
    | cons ch cs =>
      have hch : ch ≠ '/' := fun h' => hcns (h' ▸ List.mem_cons_self ch cs)
      simp only [renderStack, if_neg (by simp : ¬(false = true)), if_neg hS, hrev, ht]
      simp [isRooted, hch]

theorem renderStack_true (S : List GoStr) :
    renderStack true S = '/' :: joinSlash S.reverse := rfl

theorem renderStack_false {S : List GoStr} (hS : S ≠ []) :
    renderStack false S = joinSlash S.reverse := by
  simp [renderStack, hS]

theorem splitSlash_renderStack {rooted : Bool} {S : List GoStr}
    (h : GoodStack rooted S) (hS : S ≠ []) :
    splitSlash (renderStack rooted S) =
      (if rooted then [([] : GoStr)] else []) ++ S.reverse := by
  have hrev_ne : S.reverse ≠ [] := fun h' => hS (List.reverse_eq_nil_iff.mp h')
  have hrev_ns : ∀ c ∈ S.reverse, '/' ∉ c := fun c hc =>
    (goodStack_mem h (List.mem_reverse.mp hc)).2
  cases rooted with
  | true =>
    rw [renderStack_true, splitSlash_cons_slash,
      splitSlash_joinSlash S.reverse hrev_ne hrev_ns]
    rfl
  | false =>
    rw [renderStack_false hS, splitSlash_joinSlash S.reverse hrev_ne hrev_ns]
    rfl

theorem foldl_splitSlash_renderStack {rooted : Bool} {S : List GoStr}
    (h : GoodStack rooted S) (hS : S ≠ []) :
    (splitSlash (renderStack rooted S)).foldl (cleanStep rooted) [] = S := by
  rw [splitSlash_renderStack h hS]
  cases rooted with
  | true =>
    rw [if_pos rfl, List.singleton_append, List.foldl_cons,
      cleanStep_skip true [] (Or.inl rfl)]
    exact goodStack_refold h
  | false =>
    rw [if_neg (by simp : ¬(false = true)), List.nil_append]
    exact goodStack_refold h

theorem renderStack_push {rooted : Bool} {S : List GoStr} {c : GoStr}
    (h : GoodStack rooted S) (hS : S ≠ []) :
    renderStack rooted (c :: S) = renderStack rooted S ++ '/' :: c := by
  have hrev_ne : S.reverse ≠ [] := fun h' => hS (List.reverse_eq_nil_iff.mp h')
  have hj : joinSlash (S.reverse ++ [c]) = joinSlash S.reverse ++ '/' :: c := by
    rw [joinSlash_append S.reverse [c] hrev_ne (by simp)]
    rfl
  cases rooted with
  | true =>
    rw [renderStack_true, renderStack_true, List.reverse_cons, hj]
    simp
  | false =>
    rw [renderStack_false (by simp : (c :: S : List GoStr) ≠ []),
      renderStack_false hS, List.reverse_cons, hj]

theorem renderStack_push_many {rooted : Bool} {S : List GoStr} {cs : List GoStr}
    (h : GoodStack rooted S) (hS : S ≠ []) (hcs : cs ≠ []) :
    renderStack rooted (cs.reverse ++ S) =
      renderStack rooted S ++ '/' :: joinSlash cs := by
  have hrev_ne : S.reverse ≠ [] := fun h' => hS (List.reverse_eq_nil_iff.mp h')
  have hj : joinSlash (S.reverse ++ cs) = joinSlash S.reverse ++ '/' :: joinSlash cs :=
    joinSlash_append S.reverse cs hrev_ne hcs
  cases rooted with
  | true =>
    rw [renderStack_true, renderStack_true, List.reverse_append,
      List.reverse_reverse, hj]
    simp
  | false =>
    rw [renderStack_false (by simp [hS] : cs.reverse ++ S ≠ []),
      renderStack_false hS, List.reverse_append, List.reverse_reverse, hj]

/-- The central extension lemma: appending `'/' :: u` to a cleaned path and
re-cleaning continues the component-stack fold from the path's stack. -/
theorem goClean_render_append {rooted : Bool} {S : List GoStr}
    (h : GoodStack rooted S) (hS : S ≠ []) (u : GoStr) :
    goClean (renderStack rooted S ++ '/' :: u) =
      renderStack rooted ((splitSlash u).foldl (cleanStep rooted) S) := by
  have hne : renderStack rooted S ++ '/' :: u ≠ [] := by simp
  have hro : isRooted (renderStack rooted S ++ '/' :: u) = rooted := by
    rw [isRooted_append _ _ (renderStack_ne_nil h), isRooted_renderStack h hS]
  unfold goClean
  rw [if_neg hne, hro, splitSlash_append, List.foldl_append,
    foldl_splitSlash_renderStack h hS]

theorem goJoin_pair (s t : GoStr) (hs : s ≠ []) :
    goJoin [s, t] = goClean (s ++ '/' :: t) := by
  cases s with
  | nil => exact absurd rfl hs
  | cons a as =>
    show goClean (joinSlash [a :: as, t]) = _
    rw [joinSlash_cons (a :: as) [t] (by simp)]
    rfl

/-- A path in the image of `filepath.Clean` whose component stack is
nonempty — every path the program constructs by joining a root with
directory names is of this shape. -/
def GoodPath (p : GoStr) : Prop :=
  ∃ rooted S, GoodStack rooted S ∧ S ≠ [] ∧ p = renderStack rooted S

theorem goodPath_ne_nil {p : GoStr} (h : GoodPath p) : p ≠ [] := by
  obtain ⟨rooted, S, hS, -, rfl⟩ := h
  exact renderStack_ne_nil hS

theorem goodPath_join_valid {p c : GoStr} (h : GoodPath p) (hc : ValidName c) :
    goJoin [p, c] = p ++ '/' :: c ∧ GoodPath (p ++ '/' :: c) := by
  obtain ⟨rooted, S, hS, hne, rfl⟩ := h
  have hpush : renderStack rooted (c :: S) = renderStack rooted S ++ '/' :: c :=
    renderStack_push hS hne
  have hmain : goJoin [renderStack rooted S, c] = renderStack rooted S ++ '/' :: c := by
    rw [goJoin_pair _ _ (renderStack_ne_nil hS), goClean_render_append hS hne,
      splitSlash_noSlash c hc.2.1, List.foldl_cons, List.foldl_nil,
      cleanStep_valid rooted S hc, hpush]
  exact ⟨hmain, ⟨rooted, c :: S, goodStack_push hS hc, by simp, hpush.symm⟩⟩

theorem goodPath_join_rel {p : GoStr} (h : GoodPath p) (cs : List GoStr)
    (h0 : cs ≠ []) (hcs : ∀ c ∈ cs, ValidName c) :
    goJoin [p, '/' :: joinSlash cs] = p ++ '/' :: joinSlash cs := by
  obtain ⟨rooted, S, hS, hne, rfl⟩ := h
  rw [goJoin_pair _ _ (renderStack_ne_nil hS), goClean_render_append hS hne,
    splitSlash_cons_slash, splitSlash_joinSlash cs h0 (fun c hc => (hcs c hc).2.1),
    List.foldl_cons, cleanStep_skip rooted S (Or.inl rfl),
    foldl_cleanStep_valid rooted cs hcs S]
  exact renderStack_push_many hS hne h0

theorem goodPath_join_empty {p : GoStr} (h : GoodPath p) : goJoin [p, []] = p := by
  obtain ⟨rooted, S, hS, hne, rfl⟩ := h
  rw [goJoin_pair _ _ (renderStack_ne_nil hS), goClean_render_append hS hne]
  show renderStack rooted (List.foldl (cleanStep rooted) S [[]]) = _
  rw [List.foldl_cons, List.foldl_nil, cleanStep_skip rooted S (Or.inl rfl)]

theorem goodPath_goClean_concat (q last : GoStr) (hv : ValidName last) :
    GoodPath (goClean (q ++ '/' :: last)) := by
  have hne : q ++ '/' :: last ≠ [] := by simp
  unfold goClean
  rw [if_neg hne, splitSlash_append q last, splitSlash_noSlash last hv.2.1,
    List.foldl_append, List.foldl_cons, List.foldl_nil, cleanStep_valid _ _ hv]
  exact ⟨_, _,
    goodStack_push (goodStack_foldl (goodStack_nil _) _ (mem_splitSlash_noSlash q)) hv,
    by simp, rfl⟩

theorem goodPath_goClean_single (last : GoStr) (hv : ValidName last) :
    GoodPath (goClean last) := by
  unfold goClean
  rw [if_neg hv.1, splitSlash_noSlash last hv.2.1, List.foldl_cons, List.foldl_nil,
    cleanStep_valid _ _ hv]
  exact ⟨_, [last],
    ⟨[last], [], rfl, by simpa using hv, by simp, fun _ => rfl⟩, by simp, rfl⟩

/-- Every `goJoin` whose element list ends in a valid directory name yields
a `GoodPath` — in particular every `construct*Path`. -/
theorem goodPath_goJoin_concat (l : List GoStr) (last : GoStr) (hv : ValidName last) :
    GoodPath (goJoin (l ++ [last])) := by
  set dw := (l ++ [last]).dropWhile (fun e => e.isEmpty) with hdw
  have hdw_ne : dw ≠ [] := by
    intro h0
    have hall := List.dropWhile_eq_nil_iff.mp (hdw ▸ h0)
    exact hv.1 (List.isEmpty_iff.mp (hall last (by simp)))
  have hlast : dw.getLast? = some last := by
    obtain ⟨pre, hpre⟩ := List.dropWhile_suffix (l := l ++ [last]) (fun e => e.isEmpty)
    have h1 : (l ++ [last]).getLast? = some last := List.getLast?_concat l
    rw [← hpre, List.getLast?_append] at h1
    rcases Option.or_eq_some.mp h1 with h2 | h2
    · exact h2
    · exact absurd (List.getLast?_eq_none_iff.mp h2.1) hdw_ne
  obtain ⟨dwi, hdwi⟩ : ∃ dwi, dw = dwi ++ [last] := by
    refine ⟨dw.dropLast, ?_⟩
    rw [List.getLast?_eq_getLast dw hdw_ne] at hlast
    have hback := List.dropLast_append_getLast hdw_ne
    rw [Option.some.inj hlast] at hback
    exact hback.symm
  have hjoin : goJoin (l ++ [last]) = goClean (joinSlash dw) := by
    unfold goJoin
    rw [← hdw]
    cases hdwc : dw with
    | nil => exact absurd hdwc hdw_ne
    | cons a as => rfl
  rw [hjoin, hdwi]
  cases hdwic : dwi with
  | nil =>
    simpa [joinSlash] using goodPath_goClean_single last hv
  | cons a as =>
    rw [joinSlash_append (a :: as) [last] (by simp) (by simp)]
    exact goodPath_goClean_concat (joinSlash (a :: as)) last hv

/-! ### Walk entries and tree predicates -/

/-- One visited walk entry: the joined path, the base name and the
directory flag the callback receives. -/
structure WEntry where
  path : GoStr
  name : GoStr
  isDir : Bool
deriving DecidableEq, Repr

mutual

/-- All entries a full walk (no `SkipDir`) visits, in visit order. -/
def walkEntriesAll (path : GoStr) : FSNode → List WEntry
  | .file n => [⟨path, n, false⟩]
  | .dir n cs => ⟨path, n, true⟩ :: walkEntriesAllL path cs

def walkEntriesAllL (path : GoStr) : List FSNode → List WEntry
  | [] => []
  | c :: rest => walkEntriesAll (goJoin [path, nodeName c]) c ++ walkEntriesAllL path rest

end

mutual

/-- The entries the `pageGeneration` walk visits: as the full walk, but a
directory named `"support"` contributes only its own entry — its contents
are pruned. -/
def pgEntries (path : GoStr) : FSNode → List WEntry
  | .file n => [⟨path, n, false⟩]
  | .dir n cs =>
    if n = str "support" then [⟨path, n, true⟩]
    else ⟨path, n, true⟩ :: pgEntriesL path cs

def pgEntriesL (path : GoStr) : List FSNode → List WEntry
  | [] => []
  | c :: rest => pgEntries (goJoin [path, nodeName c]) c ++ pgEntriesL path rest

end

mutual

/-- Every name in the tree is a name a real directory walk can produce. -/
def validTree : FSNode → Bool
  | .file n => decide (ValidName n)
  | .dir n cs => decide (ValidName n) && validTreeL cs

def validTreeL : List FSNode → Bool
  | [] => true
  | c :: rest => validTree c && validTreeL rest

end

mutual

/-- Remove the contents of every directory named `"support"`. -/
def pruneSupport : FSNode → FSNode
  | .file n => .file n
  | .dir n cs => if n = str "support" then .dir n [] else .dir n (pruneSupportL cs)

def pruneSupportL : List FSNode → List FSNode
  | [] => []
  | c :: rest => pruneSupport c :: pruneSupportL rest

end

/-- The scan result `iterateDirs` produces, stated over the walk entries:
every visited entry whose base name ends in `".go"`, file or directory
alike. -/
def goFilesOf (path : GoStr) (t : FSNode) : List GoStr :=
  ((walkEntriesAll path t).filter (fun e => hasSuffixGo e.name (str ".go"))).map
    (fun e => e.path)

def goFilesOfL (path : GoStr) (cs : List FSNode) : List GoStr :=
  ((walkEntriesAllL path cs).filter (fun e => hasSuffixGo e.name (str ".go"))).map
    (fun e => e.path)

/-- An entry that makes the pairing walk fail: a `.json`-suffixed name
whose companion markup stat fails. -/
def jsonBad (ex : GoStr → Bool) (e : WEntry) : Bool :=
  hasSuffixGo e.name (str ".json") && !(ex (companionPath e.path e.name))

/-- The (description, markup) pairs the walk collects when every entry is
good: the visited `.json` entries with their companion paths. -/
def pgPairsOf (path : GoStr) (t : FSNode) : List (GoStr × GoStr) :=
  ((pgEntries path t).filter (fun e => hasSuffixGo e.name (str ".json"))).map
    (fun e => (e.path, companionPath e.path e.name))

def pgPairsOfL (path : GoStr) (cs : List FSNode) : List (GoStr × GoStr) :=
  ((pgEntriesL path cs).filter (fun e => hasSuffixGo e.name (str ".json"))).map
    (fun e => (e.path, companionPath e.path e.name))

/-- Whether a step outcome is the model-level panic. -/
def isPanicked : Except RunErr Unit → Bool
  | .error (.panicked _) => true
  | _ => false

/-- The path `filepath.Walk` hands the callback for an entry reached from
`root` through the directory names `cs`: iterated `filepath.Join`. -/
def walkPath (root : GoStr) (cs : List GoStr) : GoStr :=
  cs.foldl (fun p c => goJoin [p, c]) root

/-- The root-relative suffix contributed by the names `cs`. -/
def relSuffix (cs : List GoStr) : GoStr :=
  if cs = [] then [] else '/' :: joinSlash cs

theorem validTree_name {t : FSNode} (h : validTree t = true) :
    ValidName (nodeName t) := by
  cases t with
  | file n => exact of_decide_eq_true h
  | dir n cs =>
    rw [validTree, Bool.and_eq_true] at h
    exact of_decide_eq_true h.1

theorem nodeName_prune (t : FSNode) : nodeName (pruneSupport t) = nodeName t := by
  cases t with
  | file n => rfl
  | dir n cs =>
    by_cases h : n = str "support" <;> simp [pruneSupport, nodeName, h]

theorem walkPath_eq {root : GoStr} (h : GoodPath root) (cs : List GoStr)
    (hcs : ∀ c ∈ cs, ValidName c) :
    walkPath root cs = root ++ relSuffix cs ∧ GoodPath (walkPath root cs) := by
  induction cs generalizing root with
  | nil => exact ⟨by simp [walkPath, relSuffix], h⟩
  | cons c cs' ih =>
    obtain ⟨hj, hg⟩ := goodPath_join_valid h (hcs c (List.mem_cons_self c cs'))
    have hstep : walkPath root (c :: cs') = walkPath (root ++ '/' :: c) cs' := by
      rw [walkPath, List.foldl_cons, hj]
      rfl
    obtain ⟨ih1, ih2⟩ := ih hg (fun e he => hcs e (List.mem_cons_of_mem c he))
    refine ⟨?_, hstep ▸ ih2⟩
    rw [hstep, ih1]
    cases hcs' : cs' with
    | nil => simp [relSuffix, joinSlash]
    | cons d ds =>
      subst hcs'
      rw [relSuffix, if_neg (by simp), relSuffix, if_neg (by simp),
        joinSlash_cons c (d :: ds) (by simp)]
      simp

/-! ### Characterization of the walks -/

theorem goFilesOfL_cons (path : GoStr) (c : FSNode) (rest : List FSNode) :
    goFilesOfL path (c :: rest) =
      goFilesOf (goJoin [path, nodeName c]) c ++ goFilesOfL path rest := by
  simp [goFilesOfL, goFilesOf, walkEntriesAllL, List.filter_append]

mutual

theorem iterWalk_eq (path : GoStr) (t : FSNode) (st : List GoStr) :
    walkNode iterVisit path t st = .ok (st ++ goFilesOf path t) := by
  cases t with
  | file n =>
    by_cases h : hasSuffixGo n (str ".go") = true <;>
      simp [walkNode, iterVisit, goFilesOf, walkEntriesAll, h]
  | dir n cs =>
    by_cases h : hasSuffixGo n (str ".go") = true
    · have hL := iterWalkL_eq path cs (st ++ [path])
      simp [walkNode, iterVisit, goFilesOf, walkEntriesAll, h, hL, goFilesOfL]
    · have hL := iterWalkL_eq path cs st
      simp [walkNode, iterVisit, goFilesOf, walkEntriesAll, h, hL, goFilesOfL]

theorem iterWalkL_eq (path : GoStr) (cs : List FSNode) (st : List GoStr) :
    walkListNodes iterVisit path cs st = .ok (st ++ goFilesOfL path cs) := by
  cases cs with
  | nil => simp [walkListNodes, goFilesOfL, walkEntriesAllL]
  | cons c rest =>
    have hc := iterWalk_eq (goJoin [path, nodeName c]) c st
    have hr := iterWalkL_eq path rest (st ++ goFilesOf (goJoin [path, nodeName c]) c)
    simp [walkListNodes, hc, hr, goFilesOfL_cons]

end

mutual

theorem entriesAll_suffix (path : GoStr) (t : FSNode) (hp : GoodPath path)
    (hv : validTree t = true) :
    ∀ e ∈ walkEntriesAll path t, ∃ suf, e.path = path ++ suf := by
  cases t with
  | file n =>
    intro e he
    simp only [walkEntriesAll, List.mem_singleton] at he
    exact ⟨[], by simp [he]⟩
  | dir n cs =>
    intro e he
    rw [validTree, Bool.and_eq_true] at hv
    simp only [walkEntriesAll, List.mem_cons] at he
    rcases he with he | he
    · exact ⟨[], by simp [he]⟩
    · exact entriesAllL_suffix path cs hp hv.2 e he

theorem entriesAllL_suffix (path : GoStr) (cs : List FSNode) (hp : GoodPath path)
    (hv : validTreeL cs = true) :
    ∀ e ∈ walkEntriesAllL path cs, ∃ suf, e.path = path ++ suf := by
  cases cs with
  | nil => intro e he; simp [walkEntriesAllL] at he
  | cons c rest =>
    intro e he
    rw [validTreeL, Bool.and_eq_true] at hv
    simp only [walkEntriesAllL, List.mem_append] at he
    rcases he with he | he
    · obtain ⟨hj, hg⟩ := goodPath_join_valid hp (validTree_name hv.1)
      obtain ⟨s, hs⟩ :=
        entriesAll_suffix (goJoin [path, nodeName c]) c (hj.symm ▸ hg) hv.1 e he
      refine ⟨'/' :: nodeName c ++ s, ?_⟩
      rw [hs, hj]
      simp
    · exact entriesAllL_suffix path rest hp hv.2 e he

end

theorem entriesAll_pref (path : GoStr) (t : FSNode) (hp : GoodPath path)
    (hv : validTree t = true) :
    ∀ e ∈ walkEntriesAll path t, hasPrefixGo e.path path = true := by
  intro e he
  obtain ⟨s, hs⟩ := entriesAll_suffix path t hp hv e he
  rw [hs, hasPrefixGo]
  exact List.isPrefixOf_iff_prefix.mpr (List.prefix_append path s)

mutual

theorem pgEntries_sub (path : GoStr) (t : FSNode) :
    ∀ e ∈ pgEntries path t, e ∈ walkEntriesAll path t := by
  cases t with
  | file n => intro e he; exact he
  | dir n cs =>
    intro e he
    by_cases hsup : n = str "support"
    · simp only [pgEntries, if_pos hsup, List.mem_singleton] at he
      simp [walkEntriesAll, he]
    · simp only [pgEntries, if_neg hsup, List.mem_cons] at he
      rcases he with he | he
      · simp [walkEntriesAll, he]
      · simp only [walkEntriesAll, List.mem_cons]
        exact Or.inr (pgEntriesL_sub path cs e he)

theorem pgEntriesL_sub (path : GoStr) (cs : List FSNode) :
    ∀ e ∈ pgEntriesL path cs, e ∈ walkEntriesAllL path cs := by
  cases cs with
  | nil => intro e he; exact he
  | cons c rest =>
    intro e he
    simp only [pgEntriesL, List.mem_append] at he
    simp only [walkEntriesAllL, List.mem_append]
    rcases he with he | he
    · exact Or.inl (pgEntries_sub (goJoin [path, nodeName c]) c e he)
    · exact Or.inr (pgEntriesL_sub path rest e he)

end

theorem pgPairsOfL_cons (path : GoStr) (c : FSNode) (rest : List FSNode) :
    pgPairsOfL path (c :: rest) =
      pgPairsOf (goJoin [path, nodeName c]) c ++ pgPairsOfL path rest := by
  simp [pgPairsOfL, pgPairsOf, pgEntriesL, List.filter_append]

theorem hasSuffixGo_support_json :
    hasSuffixGo (str "support") (str ".json") = false := by decide

mutual

theorem pgWalk_ok (ex : GoStr → Bool) (path : GoStr) (t : FSNode)
    (h : ∀ e ∈ pgEntries path t, jsonBad ex e = false) (js hs : List GoStr) :
    walkNode (pgVisit ex) path t ⟨js, hs⟩ =
      .ok ⟨js ++ (pgPairsOf path t).map Prod.fst,
           hs ++ (pgPairsOf path t).map Prod.snd⟩ := by
  cases t with
  | file n =>
    by_cases hs1 : hasSuffixGo n (str ".json") = true
    · have hb := h ⟨path, n, false⟩ (by simp [pgEntries])
      rw [jsonBad] at hb
      simp only [hs1, Bool.true_and, Bool.not_eq_false'] at hb
      simp [walkNode, pgVisit, hs1, hb, pgPairsOf, pgEntries]
    · simp [walkNode, pgVisit, hs1, pgPairsOf, pgEntries]
  | dir n cs =>
    by_cases hsup : n = str "support"
    · subst hsup
      simp [walkNode, pgVisit, pgPairsOf, pgEntries, hasSuffixGo_support_json]
    · have h' : ∀ e ∈ pgEntriesL path cs, jsonBad ex e = false := fun e he =>
        h e (by simp [pgEntries, if_neg hsup, List.mem_cons, he])
      by_cases hs1 : hasSuffixGo n (str ".json") = true
      · have hb := h ⟨path, n, true⟩ (by simp [pgEntries, if_neg hsup])
        rw [jsonBad] at hb
        simp only [hs1, Bool.true_and, Bool.not_eq_false'] at hb
        have hL := pgWalkL_ok ex path cs h'
          (js ++ [path]) (hs ++ [companionPath path n])
        simp [walkNode, pgVisit, hsup, hs1, hb, hL, pgPairsOf, pgEntries,
          pgPairsOfL]
      · have hL := pgWalkL_ok ex path cs h' js hs
        simp [walkNode, pgVisit, hsup, hs1, hL, pgPairsOf, pgEntries, pgPairsOfL]

theorem pgWalkL_ok (ex : GoStr → Bool) (path : GoStr) (cs : List FSNode)
    (h : ∀ e ∈ pgEntriesL path cs, jsonBad ex e = false) (js hs : List GoStr) :
    walkListNodes (pgVisit ex) path cs ⟨js, hs⟩ =
      .ok ⟨js ++ (pgPairsOfL path cs).map Prod.fst,
           hs ++ (pgPairsOfL path cs).map Prod.snd⟩ := by
  cases cs with
  | nil => simp [walkListNodes, pgPairsOfL, pgEntriesL]
  | cons c rest =>
    have hc : ∀ e ∈ pgEntries (goJoin [path, nodeName c]) c, jsonBad ex e = false :=
      fun e he => h e (by simp [pgEntriesL, List.mem_append, he])
    have hr : ∀ e ∈ pgEntriesL path rest, jsonBad ex e = false :=
      fun e he => h e (by simp [pgEntriesL, List.mem_append, he])
    have h1 := pgWalk_ok ex (goJoin [path, nodeName c]) c hc js hs
    have h2 := pgWalkL_ok ex path rest hr
      (js ++ (pgPairsOf (goJoin [path, nodeName c]) c).map Prod.fst)
      (hs ++ (pgPairsOf (goJoin [path, nodeName c]) c).map Prod.snd)
    simp [walkListNodes, h1, h2, pgPairsOfL_cons]

end

mutual

theorem pgWalk_err (ex : GoStr → Bool) (path : GoStr) (t : FSNode) (q : WEntry)
    (h : (pgEntries path t).find? (jsonBad ex) = some q) (js hs : List GoStr) :
    walkNode (pgVisit ex) path t ⟨js, hs⟩ =
      .error (.err (str "no html file for " ++ q.path)) := by
  cases t with
  | file n =>
    by_cases hb : jsonBad ex ⟨path, n, false⟩ = true
    · rw [show pgEntries path (.file n) = [⟨path, n, false⟩] from rfl,
        List.find?_cons_of_pos _ hb] at h
      rcases Option.some.inj h with rfl
      rw [jsonBad] at hb
      simp only [Bool.and_eq_true, Bool.not_eq_true'] at hb
      simp [walkNode, pgVisit, hb.1, hb.2]
    · rw [show pgEntries path (.file n) = [⟨path, n, false⟩] from rfl,
        List.find?_cons_of_neg _ hb, List.find?_nil] at h
      exact absurd h (by simp)
  | dir n cs =>
    by_cases hsup : n = str "support"
    · subst hsup
      have hb : jsonBad ex ⟨path, str "support", true⟩ = false := by
        simp [jsonBad, hasSuffixGo_support_json]
      rw [show pgEntries path (.dir (str "support") cs) = [⟨path, str "support", true⟩] from
          by simp [pgEntries], List.find?_cons_of_neg _ (by simp [hb]),
        List.find?_nil] at h
      exact absurd h (by simp)
    · rw [show pgEntries path (.dir n cs) = ⟨path, n, true⟩ :: pgEntriesL path cs from
        by simp [pgEntries, if_neg hsup]] at h
      by_cases hb : jsonBad ex ⟨path, n, true⟩ = true
      · rw [List.find?_cons_of_pos _ hb] at h
        rcases Option.some.inj h with rfl
        rw [jsonBad] at hb
        simp only [Bool.and_eq_true, Bool.not_eq_true'] at hb
        simp [walkNode, pgVisit, hsup, hb.1, hb.2]
      · rw [List.find?_cons_of_neg _ hb] at h
        by_cases hs1 : hasSuffixGo n (str ".json") = true
        · have hex : ex (companionPath path n) = true := by
            rw [jsonBad] at hb
            simp only [hs1, Bool.true_and, Bool.not_eq_false', Bool.not_eq_true] at hb
            simpa using hb
          have hL := pgWalkL_err ex path cs q h (js ++ [path])
            (hs ++ [companionPath path n])
          simp [walkNode, pgVisit, hsup, hs1, hex, hL]
        · have hL := pgWalkL_err ex path cs q h js hs
          simp [walkNode, pgVisit, hsup, hs1, hL]

theorem pgWalkL_err (ex : GoStr → Bool) (path : GoStr) (cs : List FSNode) (q : WEntry)
    (h : (pgEntriesL path cs).find? (jsonBad ex) = some q) (js hs : List GoStr) :
    walkListNodes (pgVisit ex) path cs ⟨js, hs⟩ =
      .error (.err (str "no html file for " ++ q.path)) := by
  cases cs with
  | nil => exact absurd h (by simp [pgEntriesL])
  | cons c rest =>
    rw [show pgEntriesL path (c :: rest) =
        pgEntries (goJoin [path, nodeName c]) c ++ pgEntriesL path rest from rfl,
      List.find?_append] at h
    cases h1 : (pgEntries (goJoin [path, nodeName c]) c).find? (jsonBad ex) with
    | some q1 =>
      rw [h1] at h
      have hq : q1 = q := Option.some.inj (by simpa [Option.or] using h)
      subst hq
      have hc := pgWalk_err ex (goJoin [path, nodeName c]) c q1 h1 js hs
      simp [walkListNodes, hc]
    | none =>
      rw [h1, Option.none_or] at h
      have hgood : ∀ e ∈ pgEntries (goJoin [path, nodeName c]) c,
          jsonBad ex e = false := by
        intro e he
        have := List.find?_eq_none.mp h1 e he
        simpa using this
      have hc := pgWalk_ok ex (goJoin [path, nodeName c]) c hgood js hs
      have hr := pgWalkL_err ex path rest q h
        (js ++ (pgPairsOf (goJoin [path, nodeName c]) c).map Prod.fst)
        (hs ++ (pgPairsOf (goJoin [path, nodeName c]) c).map Prod.snd)
      simp [walkListNodes, hc, hr]

end

mutual

theorem pruneWalk_eq (ex : GoStr → Bool) (path : GoStr) (t : FSNode) (st : PGState) :
    walkNode (pgVisit ex) path (pruneSupport t) st = walkNode (pgVisit ex) path t st := by
  cases t with
  | file n => rfl
  | dir n cs =>
    by_cases hsup : n = str "support"
    · subst hsup
      simp [pruneSupport, walkNode, pgVisit, walkListNodes]
    · rw [pruneSupport, if_neg hsup]
      cases hv : pgVisit ex path n true st with
      | error e => simp [walkNode, hv]
      | ok r =>
        obtain ⟨st', skip⟩ := r
        cases skip with
        | true => simp [walkNode, hv]
        | false => simp [walkNode, hv, pruneWalkL_eq ex path cs st']

theorem pruneWalkL_eq (ex : GoStr → Bool) (path : GoStr) (cs : List FSNode) (st : PGState) :
    walkListNodes (pgVisit ex) path (pruneSupportL cs) st =
      walkListNodes (pgVisit ex) path cs st := by
  cases cs with
  | nil => rfl
  | cons c rest =>
    have hn := nodeName_prune c
    have hc := pruneWalk_eq ex (goJoin [path, nodeName c]) c st
    rw [pruneSupportL]
    simp only [walkListNodes, hn, hc]
    cases hw : walkNode (pgVisit ex) (goJoin [path, nodeName c]) c st with
    | error e => simp [hw]
    | ok st' => simp [hw, pruneWalkL_eq ex path rest st']

end

/-! ### Helper facts about the dispatch loops and constructed roots -/

theorem goodPath_client (project arg : GoStr) :
    GoodPath (constructClientPackagePath project arg) :=
  goodPath_goJoin_concat [project, str "src", arg] (str "client") (by decide)

theorem goodPath_static (project arg : GoStr) :
    GoodPath (constructStaticEnglishPath project arg) :=
  goodPath_goJoin_concat [project, str "src", arg, str "static", str "en"]
    (str "web") (by decide)

theorem goodPath_templates (project arg : GoStr) :
    GoodPath (constructTemplatesPath project arg) :=
  goodPath_goJoin_concat [project, str "src", arg, str "pages"]
    (str "template") (by decide)

theorem zip_map_fst_snd {α β : Type} (l : List (α × β)) :
    (l.map Prod.fst).zip (l.map Prod.snd) = l := by
  induction l with
  | nil => rfl
  | cons a rest ih => simp [ih]

theorem findPages_sub (w : World) : ∀ gf ps, findPages w gf = .ok ps →
    ∀ p ∈ ps, p ∈ gf := by
  intro gf
  induction gf with
  | nil =>
    intro ps h p hp
    rw [findPages] at h
    rcases Except.ok.inj h with rfl
    exact absurd hp (by simp)
  | cons f rest ih =>
    intro ps h p hp
    rw [findPages] at h
    cases hpar : w.parse f with
    | none => rw [hpar] at h; exact absurd h (by simp)
    | some file =>
      rw [hpar] at h
      cases hfp : findPages w rest with
      | error e => rw [hfp] at h; exact absurd h (by simp)
      | ok ps' =>
        rw [hfp] at h
        have hps : (if hasMainFunc file then f :: ps' else ps') = ps := Except.ok.inj h
        by_cases hm : hasMainFunc file = true
        · rw [if_pos hm] at hps
          rcases List.mem_cons.mp (hps ▸ hp) with h' | h'
          · exact h' ▸ List.mem_cons_self f rest
          · exact List.mem_cons_of_mem f (ih ps' hfp p h')
        · rw [if_neg hm] at hps
          exact List.mem_cons_of_mem f (ih ps' hfp p (hps ▸ hp))

theorem compileLoop_noPanic (w : World) (project arg : GoStr) : ∀ ps acc,
    (∀ q ∈ ps, hasPrefixGo q (constructClientPackagePath project arg) = true) →
    isPanicked (compileLoop w project arg ps acc).2 = false := by
  intro ps
  induction ps with
  | nil => intro acc h; rfl
  | cons p rest ih =>
    intro acc h
    simp only [compileLoop, if_pos (h p (List.mem_cons_self p rest))]
    by_cases hc : w.compileOk p = true
    · simp only [if_pos hc]
      exact ih _ fun q hq => h q (List.mem_cons_of_mem p hq)
    · simp only [if_neg hc]
      rfl

theorem pgLoop_noPanic (w : World) (tpl out : GoStr) : ∀ prs acc,
    (∀ pr ∈ prs, hasPrefixGo (Prod.fst pr) tpl = true) →
    isPanicked (pgLoop w tpl out prs acc).2 = false := by
  intro prs
  induction prs with
  | nil => intro acc h; rfl
  | cons pr rest ih =>
    intro acc h
    obtain ⟨jsonFile, htmlFile⟩ := pr
    simp only [pgLoop, if_pos (h (jsonFile, htmlFile) (List.mem_cons_self _ rest))]
    by_cases hc : w.pagegenOk ⟨str "support", tpl, trimPrefixGo htmlFile tpl,
        trimPrefixGo jsonFile tpl,
        goJoin [out, trimPrefixGo htmlFile tpl]⟩ = true
    · simp only [if_pos hc]
      exact ih _ fun q hq => h q (List.mem_cons_of_mem _ hq)
    · simp only [if_neg hc]
      rfl

theorem compileLoop_fail (w : World) (project arg : GoStr) : ∀ ps1 (p : GoStr) ps2 acc,
    (∀ q ∈ ps1 ++ p :: ps2,
      hasPrefixGo q (constructClientPackagePath project arg) = true) →
    (∀ q ∈ ps1, w.compileOk q = true) → w.compileOk p = false →
    compileLoop w project arg (ps1 ++ p :: ps2) acc =
      (acc ++ (ps1 ++ [p]).map (fun q => (resolveTarget project arg q, q)),
        .error (.err (str "gopherjs exit error"))) := by
  intro ps1
  induction ps1 with
  | nil =>
    intro p ps2 acc hpre hok hfail
    simp only [List.nil_append, compileLoop,
      if_pos (hpre p (List.mem_cons_self p ps2)), hfail]
    simp
  | cons q1 rest ih =>
    intro p ps2 acc hpre hok hfail
    have hq1 : hasPrefixGo q1 (constructClientPackagePath project arg) = true :=
      hpre q1 (by simp)
    simp only [List.cons_append, compileLoop, if_pos hq1,
      if_pos (hok q1 (List.mem_cons_self q1 rest))]
    have hrec := ih p ps2 (acc ++ [(resolveTarget project arg q1, q1)])
      (fun q hq => hpre q (by simp [List.mem_cons, List.mem_append] at hq ⊢; tauto))
      (fun q hq => hok q (List.mem_cons_of_mem q1 hq)) hfail
    rw [show rest.append (p :: ps2) = rest ++ p :: ps2 from rfl, hrec]
    simp

theorem trimPrefixGo_append (a b : GoStr) : trimPrefixGo (a ++ b) a = b := by
  rw [trimPrefixGo, if_pos (List.isPrefixOf_iff_prefix.mpr (List.prefix_append a b))]
  exact List.drop_left a b

theorem goodPath_join_relSuffix {p : GoStr} (hp : GoodPath p) (cs : List GoStr)
    (h : ∀ c ∈ cs, ValidName c) : goJoin [p, relSuffix cs] = p ++ relSuffix cs := by
  cases hcs : cs with
  | nil =>
    subst hcs
    rw [relSuffix, if_pos rfl]
    simpa using goodPath_join_empty hp
  | cons d ds =>
    subst hcs
    rw [relSuffix, if_neg (by simp)]
    exact goodPath_join_rel hp (d :: ds) (by simp) h

theorem findPages_no_panic (w : World) : ∀ gf e, findPages w gf = .error e →
    ∃ m, e = .err m := by
  intro gf
  induction gf with
  | nil => intro e h; rw [findPages] at h; exact absurd h (by simp)
  | cons f rest ih =>
    intro e h
    rw [findPages] at h
    cases hpar : w.parse f with
    | none => rw [hpar] at h; exact ⟨_, (Except.error.inj h).symm⟩
    | some file =>
      rw [hpar] at h
      cases hfp : findPages w rest with
      | error e' => rw [hfp] at h; exact (Except.error.inj h) ▸ ih e' hfp
      | ok ps => rw [hfp] at h; exact absurd h (by simp)

/-- `gopherjsCompilation` can fail but never reaches the prefix panic when
the walked tree carries real directory-entry names: every scanned path is
string-prefixed by the client package root. -/
theorem gopherjsCompilation_no_panic (w : World) (project arg : GoStr)
    (hv : validTree (w.tree (constructClientPackagePath project arg)) = true) :
    isPanicked (gopherjsCompilation w project arg).2 = false := by
  have hit : iterateDirs (constructClientPackagePath project arg)
      (w.tree (constructClientPackagePath project arg)) =
      .ok (goFilesOf (constructClientPackagePath project arg)
        (w.tree (constructClientPackagePath project arg))) := by
    rw [iterateDirs, iterWalk_eq]
    simp
  rw [gopherjsCompilation]
  simp only [hit]
  cases hfp : findPages w (goFilesOf (constructClientPackagePath project arg)
      (w.tree (constructClientPackagePath project arg))) with
  | error e =>
    obtain ⟨m, rfl⟩ := findPages_no_panic w _ e hfp
    simp [isPanicked]
  | ok pages =>
    simp only []
    apply compileLoop_noPanic
    intro q hq
    have hqg := findPages_sub w _ pages hfp q hq
    rw [goFilesOf] at hqg
    obtain ⟨e, hef, hep⟩ := List.mem_map.mp hqg
    have hee := (List.mem_filter.mp hef).1
    have hpref := entriesAll_pref _ _ (goodPath_client project arg) hv e hee
    rw [← hep]
    exact hpref

/-- `pageGeneration` can fail but never reaches the prefix panic when the
walked template tree carries real directory-entry names. -/
theorem pageGeneration_no_panic (w : World) (project arg : GoStr)
    (hv : validTree (w.tree (constructTemplatesPath project arg)) = true) :
    isPanicked (pageGeneration w project arg).2 = false := by
  rw [pageGeneration, pageGenerationOn]
  cases hfind : (pgEntries (constructTemplatesPath project arg)
      (w.tree (constructTemplatesPath project arg))).find? (jsonBad w.statOk) with
  | some q =>
    have hw := pgWalk_err w.statOk _ _ q hfind [] []
    simp [hw, isPanicked]
  | none =>
    have hgood : ∀ e ∈ pgEntries (constructTemplatesPath project arg)
        (w.tree (constructTemplatesPath project arg)), jsonBad w.statOk e = false :=
      fun e he => by simpa using List.find?_eq_none.mp hfind e he
    have hw := pgWalk_ok w.statOk _ _ hgood [] []
    simp only [hw, List.nil_append]
    rw [zip_map_fst_snd]
    apply pgLoop_noPanic
    intro pr hpr
    rw [pgPairsOf] at hpr
    obtain ⟨e, hef, hep⟩ := List.mem_map.mp hpr
    have hee := pgEntries_sub _ _ e (List.mem_filter.mp hef).1
    have hpref := entriesAll_pref _ _ (goodPath_templates project arg) hv e hee
    rw [← hep]
    simpa using hpref

/-! ### `os.Stat` backed by a tree, and concrete worlds for the witnesses -/

mutual

/-- `os.Stat` success derived from a tree placed at `path`: the query names
the node itself or any node below it — directories included. -/
def statTree (path p : GoStr) : FSNode → Bool
  | .file _ => p = path
  | .dir _ cs => p = path || statTreeL path p cs

def statTreeL (path p : GoStr) : List FSNode → Bool
  | [] => false
  | c :: rest => statTree (goJoin [path, nodeName c]) p c || statTreeL path p rest

end

/-- A filesystem node with nothing interesting in it. -/
def trivialTree : FSNode := .file (str "x")

/-- World for the missing-environment scenario: everything is in place
except `GB_PROJECT_DIR`. -/
def envWorld : World where
  projectEnv := []
  execsOk := true
  statOk := fun _ => true
  tree := fun _ => trivialTree
  parse := fun _ => some ⟨[]⟩
  compileOk := fun _ => true
  pagegenOk := fun _ => true

/-- World for the compile-failure scenario: packages `a` and `b` each have
one entry point `m.go`; the compiler fails on `a`'s page and succeeds on
`b`'s. -/
def failWorld : World where
  projectEnv := str "/p"
  execsOk := true
  statOk := fun _ => true
  tree := fun p =>
    if p = constructClientPackagePath (str "/p") (str "a") ∨
        p = constructClientPackagePath (str "/p") (str "b") then
      .dir (str "client") [.file (str "m.go")]
    else trivialTree
  parse := fun _ => some ⟨[.funcDecl (str "main") false]⟩
  compileOk := fun p => decide (p = str "/p/src/b/client/m.go")
  pagegenOk := fun _ => true

/-- World for the support-exclusion scenario: every stat succeeds. -/
def statOkWorld : World where
  projectEnv := str "/p"
  execsOk := true
  statOk := fun _ => true
  tree := fun _ => trivialTree
  parse := fun _ => some ⟨[]⟩
  compileOk := fun _ => true
  pagegenOk := fun _ => true

/-- Template tree for the directory-companion scenario: `x/page.json` is
paired with a directory named `page.html`. -/
def dirCompanionTree : FSNode :=
  .dir (str "template")
    [.dir (str "x") [.file (str "page.json"), .dir (str "page.html") []]]

/-- World whose `os.Stat` is backed by `dirCompanionTree` at the templates
path of package `app`. -/
def dirCompanionWorld : World where
  projectEnv := str "/p"
  execsOk := true
  statOk := fun p => statTree (constructTemplatesPath (str "/p") (str "app")) p
    dirCompanionTree
  tree := fun _ => dirCompanionTree
  parse := fun _ => some ⟨[]⟩
  compileOk := fun _ => true
  pagegenOk := fun _ => true

/-- World for the directory-scanned-as-source scenario: the client package
contains a directory named `sub.go` and parsing always fails. -/
def dirGoWorld : World where
  projectEnv := str "/p"
  execsOk := true
  statOk := fun _ => true
  tree := fun _ => .dir (str "client") [.dir (str "sub.go") [.file (str "m.go")]]
  parse := fun _ => none
  compileOk := fun _ => true
  pagegenOk := fun _ => true

/-- World for the unpaired-description scenario: one `page.json` and no
markup anywhere (`os.Stat` always fails). -/
def unpairedWorld : World where
  projectEnv := str "/p"
  execsOk := true
  statOk := fun _ => false
  tree := fun _ => .dir (str "template") [.dir (str "x") [.file (str "page.json")]]
  parse := fun _ => some ⟨[]⟩
  compileOk := fun _ => true
  pagegenOk := fun _ => true

/-! ### Sanity checks of the path model -/

theorem sanity_clean_collapse : goClean (str "/a//b/./../c") = str "/a/c" := by decide

theorem sanity_join : goJoin [str "/p", str "src", str "", str "client"] = str "/p/src/client" := by
  decide

theorem sanity_dir : goDir (str "/p/t/x/page.json") = str "/p/t/x" := by decide

/-! ### The claims -/

/-- Claim C1, counterexample: the claim requires that a function with a
receiver must not count, but `hasMainFunc` classifies a file whose only
top-level declaration is a method named `main` (receiver present) as an
entry point, while the specification's entry-point test rejects it. -/
theorem claim_C1_counterexample :
    hasMainFunc ⟨[GoDecl.funcDecl (str "main") true]⟩ = true ∧
    specEntryPointMain ⟨[GoDecl.funcDecl (str "main") true]⟩ = false :=
  ⟨by decide, by decide⟩

/-- Claim C1, amended: the scanner classifies a parsed file as an entry
point if and only if its top-level declarations contain a function
declaration named exactly `main` — with or without a receiver (methods
count; the source never inspects `Recv`). -/
theorem claim_C1 (f : GoFile) :
    hasMainFunc f = true ↔ ∃ r, GoDecl.funcDecl (str "main") r ∈ f.decls := by
  rw [hasMainFunc, List.any_eq_true]
  constructor
  · rintro ⟨d, hd, hp⟩
    cases d with
    | funcDecl n r =>
      have hn : n = str "main" := of_decide_eq_true hp
      exact ⟨r, hn ▸ hd⟩
    | genDecl => exact absurd hp (by simp)
  · rintro ⟨r, hr⟩
    exact ⟨GoDecl.funcDecl (str "main") r, hr, decide_eq_true rfl⟩

/-- Claim C2: for every path the walk can discover under the client package
root (the root extended by any chain of real directory-entry names), the
resolved output path is the static/en/web root joined with the
EntryRoot-stripped suffix, and the mapping round-trips: stripping the
output root from the resolved path and re-joining onto the client root
reproduces the discovered path. -/
theorem claim_C2 (project arg : GoStr) (cs : List GoStr)
    (h : ∀ c ∈ cs, ValidName c) :
    resolveTarget project arg (walkPath (constructClientPackagePath project arg) cs) =
      goJoin [constructStaticEnglishPath project arg,
        trimPrefixGo (walkPath (constructClientPackagePath project arg) cs)
          (constructClientPackagePath project arg)] ∧
    goJoin [constructClientPackagePath project arg,
      trimPrefixGo
        (resolveTarget project arg
          (walkPath (constructClientPackagePath project arg) cs))
        (constructStaticEnglishPath project arg)] =
      walkPath (constructClientPackagePath project arg) cs := by
  refine ⟨rfl, ?_⟩
  obtain ⟨hwp, -⟩ := walkPath_eq (goodPath_client project arg) cs h
  rw [hwp, resolveTarget, trimPrefixGo_append,
    goodPath_join_relSuffix (goodPath_static project arg) cs h,
    trimPrefixGo_append,
    goodPath_join_relSuffix (goodPath_client project arg) cs h]

/-- Claim C2, witness at `project = "/p"`, `arg = "app"`,
`e = client-root/a/main.go`. -/
theorem claim_C2_witness :
    (∀ c ∈ [str "a", str "main.go"], ValidName c) ∧
    (resolveTarget (str "/p") (str "app")
        (walkPath (constructClientPackagePath (str "/p") (str "app"))
          [str "a", str "main.go"]) =
      goJoin [constructStaticEnglishPath (str "/p") (str "app"),
        trimPrefixGo
          (walkPath (constructClientPackagePath (str "/p") (str "app"))
            [str "a", str "main.go"])
          (constructClientPackagePath (str "/p") (str "app"))] ∧
    goJoin [constructClientPackagePath (str "/p") (str "app"),
      trimPrefixGo
        (resolveTarget (str "/p") (str "app")
          (walkPath (constructClientPackagePath (str "/p") (str "app"))
            [str "a", str "main.go"]))
        (constructStaticEnglishPath (str "/p") (str "app"))] =
      walkPath (constructClientPackagePath (str "/p") (str "app"))
        [str "a", str "main.go"]) :=
  ⟨by decide, claim_C2 (str "/p") (str "app") [str "a", str "main.go"] (by decide)⟩

/-- Claim C3: a path that is not a string-prefix descendant of its root
makes the compile loop (and likewise the page dispatch loop) abort with the
panic, never silently skipping it; and under real directory-entry names the
scanner only produces prefixed paths, so neither `gopherjsCompilation` nor
`pageGeneration` can reach the panic. -/
theorem claim_C3 (w : World) (project arg page jsonf htmlf : GoStr)
    (restp : List GoStr) (restj : List (GoStr × GoStr))
    (accg : List GJob) (accj : List Job)
    (hpage : hasPrefixGo page (constructClientPackagePath project arg) = false)
    (hjson : hasPrefixGo jsonf (constructTemplatesPath project arg) = false)
    (hvR : validTree (w.tree (constructClientPackagePath project arg)) = true)
    (hvT : validTree (w.tree (constructTemplatesPath project arg)) = true) :
    compileLoop w project arg (page :: restp) accg =
      (accg, .error (.panicked (str "unable to understand page path " ++ page ++
        str " in package " ++ constructClientPackagePath project arg))) ∧
    pgLoop w (constructTemplatesPath project arg)
      (constructStaticEnglishPath project arg) ((jsonf, htmlf) :: restj) accj =
      (accj, .error (.panicked (str "unable to understand json path " ++ jsonf ++
        str " in template dir " ++ constructTemplatesPath project arg))) ∧
    isPanicked (gopherjsCompilation w project arg).2 = false ∧
    isPanicked (pageGeneration w project arg).2 = false := by
  refine ⟨?_, ?_, gopherjsCompilation_no_panic w project arg hvR,
    pageGeneration_no_panic w project arg hvT⟩
  · simp only [compileLoop]
    rw [if_neg (by simp [hpage])]
  · simp only [pgLoop]
    rw [if_neg (by simp [hjson])]

/-- Claim C3, witness: a page `zzz` and a json `yyy` that are prefixed by
neither root panic the loops, while the scanner-produced paths of
`statOkWorld`'s (valid) trees never do. -/
theorem claim_C3_witness :
    (hasPrefixGo (str "zzz")
        (constructClientPackagePath (str "/p") (str "app")) = false ∧
      hasPrefixGo (str "yyy")
        (constructTemplatesPath (str "/p") (str "app")) = false ∧
      validTree (statOkWorld.tree
        (constructClientPackagePath (str "/p") (str "app"))) = true ∧
      validTree (statOkWorld.tree
        (constructTemplatesPath (str "/p") (str "app"))) = true) ∧
    (compileLoop statOkWorld (str "/p") (str "app") [str "zzz"] [] =
      ([], .error (.panicked (str "unable to understand page path " ++ str "zzz" ++
        str " in package " ++ constructClientPackagePath (str "/p") (str "app")))) ∧
    pgLoop statOkWorld (constructTemplatesPath (str "/p") (str "app"))
      (constructStaticEnglishPath (str "/p") (str "app"))
      [(str "yyy", str "w.html")] [] =
      ([], .error (.panicked (str "unable to understand json path " ++ str "yyy" ++
        str " in template dir " ++ constructTemplatesPath (str "/p") (str "app")))) ∧
    isPanicked (gopherjsCompilation statOkWorld (str "/p") (str "app")).2 = false ∧
    isPanicked (pageGeneration statOkWorld (str "/p") (str "app")).2 = false) :=
  ⟨⟨by decide, by decide, by decide, by decide⟩,
    claim_C3 statOkWorld (str "/p") (str "app") (str "zzz") (str "yyy")
      (str "w.html") [] [] [] [] (by decide) (by decide) (by decide) (by decide)⟩

/-- Claim C4: when some walked description file under the template root
lacks its companion markup (the first such entry in walk order being `q`),
`pageGeneration` aborts with the diagnostic naming the offending json file,
and dispatches no generator job at all. -/
theorem claim_C4 (w : World) (project arg : GoStr) (q : WEntry)
    (h : (pgEntries (constructTemplatesPath project arg)
        (w.tree (constructTemplatesPath project arg))).find? (jsonBad w.statOk) =
      some q) :
    pageGeneration w project arg =
      ([], .error (.err (str "no html file for " ++ q.path))) := by
  have hw := pgWalk_err w.statOk (constructTemplatesPath project arg)
    (w.tree (constructTemplatesPath project arg)) q h [] []
  rw [pageGeneration, pageGenerationOn]
  simp [hw]

/-- Claim C4, witness: the spec scenario — `template/x/page.json` with no
`page.html` anywhere (`os.Stat` always fails) aborts the whole phase with
the diagnostic and an empty dispatch list. -/
theorem claim_C4_witness :
    ((pgEntries (constructTemplatesPath (str "/p") (str "app"))
        (unpairedWorld.tree (constructTemplatesPath (str "/p") (str "app")))).find?
        (jsonBad unpairedWorld.statOk) =
      some ⟨str "/p/src/app/pages/template/x/page.json", str "page.json", false⟩) ∧
    pageGeneration unpairedWorld (str "/p") (str "app") =
      ([], .error (.err (str "no html file for " ++
        (⟨str "/p/src/app/pages/template/x/page.json", str "page.json", false⟩ :
          WEntry).path))) :=
  ⟨by decide, claim_C4 unpairedWorld (str "/p") (str "app")
    ⟨str "/p/src/app/pages/template/x/page.json", str "page.json", false⟩ (by decide)⟩

/-- Claim C5: the `support` subtree is pruned from the pairing traversal
entirely — page generation on any tree equals page generation on the tree
with every `support` directory emptied; and, concretely, a correctly paired
json/html couple that lives only inside `support` yields no pair and no
dispatch even when every stat succeeds. -/
theorem claim_C5 :
    (∀ (w : World) (project arg : GoStr) (t : FSNode),
      pageGenerationOn w project arg (pruneSupport t) =
        pageGenerationOn w project arg t) ∧
    pageGenerationOn statOkWorld (str "/p") (str "app")
      (FSNode.dir (str "template")
        [FSNode.dir (str "support")
          [FSNode.file (str "a.json"), FSNode.file (str "a.html")]]) =
      ([], .ok ()) := by
  constructor
  · intro w project arg t
    simp only [pageGenerationOn, pruneWalk_eq]
  · rfl

/-- Claim C6, counterexample: with the compiler failing on package `a`'s
only entry point, the run `[a, b]` exits 1 after `a`'s single invocation
and never attempts argument `b` — although `b` alone compiles fine — so
subsequent arguments are NOT attempted. -/
theorem claim_C6_counterexample :
    mainModel verbose failWorld [str "a", str "b"] =
      (⟨[(str "/p/src/a/static/en/web/m.go", str "/p/src/a/client/m.go")], []⟩,
        .exit 1) ∧
    mainModel verbose failWorld [str "b"] =
      (⟨[(str "/p/src/b/static/en/web/m.go", str "/p/src/b/client/m.go")], []⟩,
        .exit 0) ∧
    str "/p/src/b/client/m.go" ∉
      (mainModel verbose failWorld [str "a", str "b"]).1.gopherjs.map Prod.snd :=
  ⟨rfl, rfl, by decide⟩

/-- Claim C6, amended: a non-zero compiler exit on entry point `p` of the
first argument aborts the remaining entry points of that argument (only the
pages before `p`, and `p` itself, are invoked), dispatches no page
generation, and exits the whole process with status 1 — subsequent
command-line arguments are not attempted. -/
theorem claim_C6 (w : World) (a : GoStr) (rest : List GoStr)
    (ps1 : List GoStr) (p : GoStr) (ps2 : List GoStr)
    (hproj : w.projectEnv ≠ [])
    (hexec : w.execsOk = true)
    (hval : validateProjectStructure w w.projectEnv a = true)
    (hpages : findPages w (goFilesOf (constructClientPackagePath w.projectEnv a)
        (w.tree (constructClientPackagePath w.projectEnv a))) = .ok (ps1 ++ p :: ps2))
    (hpre : ∀ q ∈ ps1 ++ p :: ps2,
      hasPrefixGo q (constructClientPackagePath w.projectEnv a) = true)
    (hok : ∀ q ∈ ps1, w.compileOk q = true)
    (hfail : w.compileOk p = false) :
    mainModel verbose w (a :: rest) =
      (⟨(ps1 ++ [p]).map (fun q => (resolveTarget w.projectEnv a q, q)), []⟩,
        .exit 1) := by
  have hit : iterateDirs (constructClientPackagePath w.projectEnv a)
      (w.tree (constructClientPackagePath w.projectEnv a)) =
      .ok (goFilesOf (constructClientPackagePath w.projectEnv a)
        (w.tree (constructClientPackagePath w.projectEnv a))) := by
    rw [iterateDirs, iterWalk_eq]
    simp
  have hgc : gopherjsCompilation w w.projectEnv a =
      ((ps1 ++ [p]).map (fun q => (resolveTarget w.projectEnv a q, q)),
        .error (.err (str "gopherjs exit error"))) := by
    rw [gopherjsCompilation]
    simp only [hit, hpages]
    rw [compileLoop_fail w w.projectEnv a ps1 p ps2 [] hpre hok hfail]
    simp
  rw [mainModel]
  simp only [if_neg hproj, hexec, Bool.not_true, Bool.false_eq_true, if_false,
    if_neg (by simp : ¬(a :: rest = []))]
  rw [argLoop]
  simp [hval, hgc]

/-- Claim C6, witness: `failWorld`, argument `a` then `b`, with the single
page of `a` failing to compile. -/
theorem claim_C6_witness :
    (findPages failWorld
        (goFilesOf (constructClientPackagePath failWorld.projectEnv (str "a"))
          (failWorld.tree (constructClientPackagePath failWorld.projectEnv (str "a")))) =
      .ok ([] ++ str "/p/src/a/client/m.go" :: []) ∧
      failWorld.compileOk (str "/p/src/a/client/m.go") = false) ∧
    mainModel verbose failWorld (str "a" :: [str "b"]) =
      (⟨([] ++ [str "/p/src/a/client/m.go"]).map
          (fun q => (resolveTarget failWorld.projectEnv (str "a") q, q)), []⟩,
        .exit 1) :=
  ⟨⟨rfl, by decide⟩,
    claim_C6 failWorld (str "a") [str "b"] [] (str "/p/src/a/client/m.go") []
      (by decide) rfl rfl rfl (by decide) (by simp) (by decide)⟩

/-- Claim C7, counterexample: with the project-root environment variable
unset the process does fail immediately with the diagnostic and no work
done, but by panicking — a Go panic, which terminates with status 2 — not
by `os.Exit(1)`: the outcome is not exit status 1. -/
theorem claim_C7_counterexample :
    mainModel verbose envWorld [str "app"] =
      (⟨[], []⟩, .panicked
        (str "gb extensions should be launched with GB_PROJECT_DIR set")) ∧
    (mainModel verbose envWorld [str "app"]).2 ≠ .exit 1 :=
  ⟨rfl, by decide⟩

/-- Claim C7, amended: when the project-root environment variable is unset
the process fails immediately — before doing any work (empty trace) — with
the diagnostic, via `panic` (which in Go terminates with status 2), not via
`os.Exit(1)`. -/
theorem claim_C7 (w : World) (args : List GoStr) (h : w.projectEnv = []) :
    mainModel verbose w args =
      (⟨[], []⟩, .panicked
        (str "gb extensions should be launched with GB_PROJECT_DIR set")) := by
  simp [mainModel, h]

/-- Claim C7, witness: `envWorld` with one argument. -/
theorem claim_C7_witness :
    envWorld.projectEnv = [] ∧
    mainModel verbose envWorld [str "pkg"] =
      (⟨[], []⟩, .panicked
        (str "gb extensions should be launched with GB_PROJECT_DIR set")) :=
  ⟨rfl, claim_C7 envWorld [str "pkg"] rfl⟩

/-- Claim C8: the scan keeps every walked entry whose base name ends in
`.go` with no regular-file check — the scan result is exactly the
name-filtered walk entries, a directory entry named `*.go` is included like
a file, and such a directory path is subsequently handed to the
declaration parser (in `dirGoWorld` the parse of the directory
`client/sub.go` is the first and failing parse). -/
theorem claim_C8 (root : GoStr) (t : FSNode) (e : WEntry)
    (he : e ∈ walkEntriesAll root t)
    (hsuf : hasSuffixGo e.name (str ".go") = true) :
    iterateDirs root t = .ok (goFilesOf root t) ∧
    e.path ∈ goFilesOf root t ∧
    gopherjsCompilation dirGoWorld (str "/p") (str "app") =
      ([], .error (.err (str "error parsing /p/src/app/client/sub.go"))) := by
  refine ⟨?_, ?_, rfl⟩
  · rw [iterateDirs, iterWalk_eq]
    simp
  · rw [goFilesOf]
    exact List.mem_map.mpr ⟨e, List.mem_filter.mpr ⟨he, hsuf⟩, rfl⟩

/-- Claim C8, witness: a directory entry named `sub.go`. -/
theorem claim_C8_witness :
    ((⟨str "/c/sub.go", str "sub.go", true⟩ : WEntry) ∈
        walkEntriesAll (str "/c")
          (.dir (str "client") [.dir (str "sub.go") []]) ∧
      hasSuffixGo (str "sub.go") (str ".go") = true) ∧
    (iterateDirs (str "/c") (.dir (str "client") [.dir (str "sub.go") []]) =
      .ok (goFilesOf (str "/c") (.dir (str "client") [.dir (str "sub.go") []])) ∧
    (str "/c/sub.go") ∈
      goFilesOf (str "/c") (.dir (str "client") [.dir (str "sub.go") []]) ∧
    gopherjsCompilation dirGoWorld (str "/p") (str "app") =
      ([], .error (.err (str "error parsing /p/src/app/client/sub.go")))) :=
  ⟨⟨by decide, by decide⟩,
    claim_C8 (str "/c") (.dir (str "client") [.dir (str "sub.go") []])
      ⟨str "/c/sub.go", str "sub.go", true⟩ (by decide) (by decide)⟩

/-- Claim C9: for a walked entry whose name ends in `.json`, the pairing
check fails (with the abort error) exactly when the companion stat fails —
a bare existence check, not a regular-file check; on stat success the pair
is recorded.  Concretely, a directory named `page.html` satisfies the
companion requirement for `page.json` and the pair is dispatched. -/
theorem claim_C9 (ex : GoStr → Bool) (path name : GoStr) (isDir : Bool)
    (st : PGState) (h : hasSuffixGo name (str ".json") = true) :
    ((pgVisit ex path name isDir st =
        .error (.err (str "no html file for " ++ path))) ↔
      ex (companionPath path name) = false) ∧
    (ex (companionPath path name) = true →
      pgVisit ex path name isDir st =
        .ok (⟨st.jsonFiles ++ [path], st.htmlFiles ++ [companionPath path name]⟩,
          false)) ∧
    pageGenerationOn dirCompanionWorld (str "/p") (str "app") dirCompanionTree =
      ([⟨str "support", constructTemplatesPath (str "/p") (str "app"),
          str "/x/page.html", str "/x/page.json",
          str "/p/src/app/static/en/web/x/page.html"⟩], .ok ()) := by
  have hnsup : ¬(name = str "support") := by
    intro he
    rw [he, hasSuffixGo_support_json] at h
    exact absurd h (by simp)
  refine ⟨?_, ?_, rfl⟩
  · by_cases hex : ex (companionPath path name) = true
    · simp [pgVisit, h, hnsup, hex]
    · simp [pgVisit, h, hnsup, hex]
  · intro hex
    simp [pgVisit, h, hnsup, hex]

/-- Claim C9, witness: the stat oracle that always fails, on a `page.json`
entry. -/
theorem claim_C9_witness :
    hasSuffixGo (str "page.json") (str ".json") = true ∧
    (((pgVisit (fun _ => false) (str "/t/page.json") (str "page.json") false
          ⟨[], []⟩ =
        .error (.err (str "no html file for " ++ str "/t/page.json"))) ↔
      (fun (_ : GoStr) => false) (companionPath (str "/t/page.json")
        (str "page.json")) = false) ∧
    ((fun (_ : GoStr) => false) (companionPath (str "/t/page.json")
        (str "page.json")) = true →
      pgVisit (fun _ => false) (str "/t/page.json") (str "page.json") false
          ⟨[], []⟩ =
        .ok (⟨([] : List GoStr) ++ [str "/t/page.json"],
          ([] : List GoStr) ++ [companionPath (str "/t/page.json") (str "page.json")]⟩,
          false)) ∧
    pageGenerationOn dirCompanionWorld (str "/p") (str "app") dirCompanionTree =
      ([⟨str "support", constructTemplatesPath (str "/p") (str "app"),
          str "/x/page.html", str "/x/page.json",
          str "/p/src/app/static/en/web/x/page.html"⟩], .ok ())) :=
  ⟨by decide, claim_C9 (fun _ => false) (str "/t/page.json") (str "page.json")
    false ⟨[], []⟩ (by decide)⟩

/-- Claim C10: the observable behavior of the program does not depend on
the global `verbose` flag — it is set to `true` and never read, so any two
runs differing only in its value produce identical traces and outcomes. -/
theorem claim_C10 :
    verbose = true ∧
    ∀ (v₁ v₂ : Bool) (w : World) (args : List GoStr),
      mainModel v₁ w args = mainModel v₂ w args :=
  ⟨rfl, fun _ _ _ _ => rfl⟩

end GbSeven5
